import Mathlib

/-!
Verification of the ledger core of `src/start.py` (Case Battle Tracker).

The embedding models:
* `parse_amount` together with the string-to-`Decimal` conversion it relies on
  (Python `decimal.Decimal(str)`: whitespace stripping, underscore removal, the
  numeric-string grammar with optional sign, fractional part, exponent part and
  the `Infinity`/`NaN` literals, restricted here to ASCII characters), the
  `value <= 0` test and `quantize(Decimal("0.01"))` with the default context:
  ROUND_HALF_EVEN and the 28-significant-digit precision bound that makes
  `quantize` raise `InvalidOperation` when the quantized coefficient needs more
  than 28 digits.
* `LedgerStorage`: the `Transactions` sheet as a list of records, the `Summary`
  sheet as a list of rows, and the operations `add_transaction`, `reset_user`,
  `_rebuild_summary`, `get_user_stats`, `get_user_history`.

Decimal values are carried as exact rationals, and the numeric pipeline is
modelled faithfully:
* every `Decimal` addition, subtraction, multiplication and division inside
  `_rebuild_summary` is correctly rounded to the default context precision of
  28 significant digits (`roundSig 28`, half-even);
* `round(roi, 2)` is a context quantize that fails (`InvalidOperation`) when
  the rounded coefficient needs more than 28 digits, so `_rebuild_summary` and
  with it both mutations are fallible: `none` models the raised exception, in
  which case the workbook is never saved and the durable state is unchanged;
* each worksheet cell holding a number is written as `float(value)` and always
  read back as `Decimal(str(cell))`, so the model stores the value after that
  store/load round-trip: IEEE-754 binary64 rounding (`toBinary64`, round to
  nearest, ties to even) followed by Python float `str` (`floatRepr`, the
  shortest correctly rounded decimal of at most 17 significant digits that
  converts back to the same binary64 value).
The bounded-fuel digit counters beneath `floorLog10`/`floorLog2` are exact for
every magnitude below `10 ^ 100`, far beyond any value this program can
produce (single amounts stay below `10 ^ 26`, ROI magnitudes below `10 ^ 32`);
decimal exponent-range limits (`Emax`) are likewise unreachable and are not
modelled.  Wall-clock timestamps are explicit string parameters of the
mutating operations.
-/

/-! ### Python decimal strings -/

/-- A parsed Python `Decimal`: a finite value `(-1)^neg * coeff * 10^exp`,
a signed infinity, or a NaN. -/
inductive PyDecimal where
  | finite (neg : Bool) (coeff : ℕ) (exp : ℤ)
  | infinite (neg : Bool)
  | nan
deriving DecidableEq

/-- ASCII whitespace characters stripped by `str.strip()`. -/
def isWs (c : Char) : Bool :=
  c == ' ' || c == '\t' || c == '\n' || c == '\r' || c == '\x0b' || c == '\x0c'

/-- `str.strip()`: drop whitespace from both ends. -/
def stripList (l : List Char) : List Char :=
  ((l.dropWhile isWs).reverse.dropWhile isWs).reverse

/-- `raw.replace(",", ".")` for the one-character pattern: pointwise map. -/
def commaToDot (l : List Char) : List Char :=
  l.map (fun c => if c = ',' then '.' else c)

/-- Consume an optional leading sign; `true` means negative. -/
def splitSign (l : List Char) : Bool × List Char :=
  match l with
  | [] => (false, [])
  | c :: r =>
    if c = '+' then (false, r)
    else if c = '-' then (true, r)
    else (false, c :: r)

/-- Split at the first exponent indicator `e`/`E` (the indicator is dropped). -/
def splitAtExp : List Char → List Char × Option (List Char)
  | [] => ([], none)
  | c :: cs =>
    if c = 'e' ∨ c = 'E' then ([], some cs)
    else
      let p := splitAtExp cs
      (c :: p.1, p.2)

/-- Split at the first `.` (the dot is dropped). -/
def splitAtDot : List Char → List Char × Option (List Char)
  | [] => ([], none)
  | c :: cs =>
    if c = '.' then ([], some cs)
    else
      let p := splitAtDot cs
      (c :: p.1, p.2)

/-- Numeric value of a (non-empty or empty) ASCII digit string. -/
def digitsVal (l : List Char) : ℕ :=
  l.foldl (fun n c => 10 * n + (c.toNat - 48)) 0

/-- Lower-cased `NaN` / `sNaN` literal with an optional digit diagnostic. -/
def isNanLit (l : List Char) : Bool :=
  match l with
  | 'n' :: 'a' :: 'n' :: ds => ds.all Char.isDigit
  | 's' :: 'n' :: 'a' :: 'n' :: ds => ds.all Char.isDigit
  | _ => false

/-- Parse the optional exponent part: `[sign] digits`, non-empty. -/
def parseExpPart : Option (List Char) → Option ℤ
  | none => some 0
  | some es =>
    let p := splitSign es
    if !p.2.isEmpty && p.2.all Char.isDigit then
      some (if p.1 then -(digitsVal p.2 : ℤ) else (digitsVal p.2 : ℤ))
    else none

/-- Whether the mantissa (the part before any exponent indicator) matches
`digits [. digits]` with at least one digit overall. -/
def mantissaOk (mant : List Char) : Bool :=
  (splitAtDot mant).1.all Char.isDigit &&
    ((splitAtDot mant).2.getD []).all Char.isDigit &&
    !((splitAtDot mant).1 ++ (splitAtDot mant).2.getD []).isEmpty

/-- Parse the finite branch of the grammar: `digits [. digits] [E exp]`,
needing at least one digit in the integer-plus-fraction part. -/
def parseFinitePart (neg : Bool) (rest : List Char) : Option PyDecimal :=
  let me := splitAtExp rest
  match parseExpPart me.2 with
  | none => none
  | some ev =>
    if mantissaOk me.1 then
      some (.finite neg (digitsVal ((splitAtDot me.1).1 ++ (splitAtDot me.1).2.getD []))
        (ev - ((splitAtDot me.1).2.getD []).length))
    else none

/-- `decimal.Decimal(string)`: strip whitespace, remove underscores, optional
sign, then either an `Infinity`/`NaN` literal (case-insensitive) or a finite
numeric value.  Returns `none` where the constructor raises
`InvalidOperation`. -/
def parseDecimalString (l : List Char) : Option PyDecimal :=
  let cleaned := (stripList l).filter (fun c => c != '_')
  let sr := splitSign cleaned
  let low := sr.2.map Char.toLower
  if low = "inf".data ∨ low = "infinity".data then some (.infinite sr.1)
  else if isNanLit low then some .nan
  else parseFinitePart sr.1 sr.2

/-- Round `n / d` (both naturals, `d > 0`) to the nearest integer,
ties to even — `decimal`'s default ROUND_HALF_EVEN on nonnegative values. -/
def rhedivN (n d : ℕ) : ℕ :=
  let q := n / d
  let r := n % d
  if 2 * r < d then q
  else if d < 2 * r then q + 1
  else if q % 2 = 0 then q else q + 1

/-- Coefficient of `coeff * 10^exp` re-expressed at exponent `-2`
(half-even rounded when digits are dropped). -/
def quantCoeff (c : ℕ) (e : ℤ) : ℕ :=
  if 0 ≤ e + 2 then c * 10 ^ (e + 2).toNat
  else rhedivN c (10 ^ (-(e + 2)).toNat)

/-- `Decimal.quantize(Decimal("0.01"))` on a nonnegative finite value under the
default context: half-even rounding to exponent `-2`, raising
`InvalidOperation` (modelled as `none`) when the resulting coefficient needs
more than the context precision of 28 digits. -/
def quantize2 (c : ℕ) (e : ℤ) : Option ℕ :=
  if quantCoeff c e < 10 ^ 28 then some (quantCoeff c e) else none

/-- Rational value of a finite parsed decimal. -/
def dval (neg : Bool) (c : ℕ) (e : ℤ) : ℚ :=
  (if neg then -1 else 1) * (c : ℚ) * (10 : ℚ) ^ e

/-- The text `parse_amount` hands to the `Decimal` constructor:
`raw.replace(",", ".").strip()`. -/
def normalizedOf (raw : String) : List Char :=
  stripList (commaToDot raw.data)

/-- `parse_amount` from `src/start.py`: normalize comma to dot, strip, convert
to `Decimal`, reject values `<= 0` (`ValueError`), quantize to two fractional
digits.  `none` models every raising path (`InvalidOperation` from the
constructor, from comparing a NaN, from quantizing an infinity or overflowing
the context precision, and the explicit `ValueError`). -/
def parse_amount (raw : String) : Option ℚ :=
  match parseDecimalString (normalizedOf raw) with
  | some (.finite neg c e) =>
    if neg ∨ c = 0 then none
    else
      match quantize2 c e with
      | some c2 => some ((c2 : ℚ) / 100)
      | none => none
  | _ => none

/-- Success domain of `parse_amount`: the normalized text is a valid finite
decimal numeral whose value is strictly positive and whose 2-decimal
quantization stays within the 28-digit context precision. -/
def amountOk (raw : String) : Prop :=
  ∃ neg c e, parseDecimalString (normalizedOf raw) = some (.finite neg c e) ∧
    0 < dval neg c e ∧ quantCoeff c e < 10 ^ 28

/-! ### The ledger -/

/-- Transaction kind: the `tx_type` strings `"deposit"` / `"withdraw"`
(the only two keys of the per-user accumulator dictionary). -/
inductive TxType where
  | deposit
  | withdraw
deriving DecidableEq

/-- One row of the `Transactions` sheet.  `amount` holds the value as read
back through `Decimal(str(cell))` — the only way the program ever reads the
`float(amount)` cell. -/
structure Tx where
  user_id : ℤ
  tx_type : TxType
  amount : ℚ
  timestamp : String
deriving DecidableEq

/-- One row of the `Summary` sheet, fields as read back through
`Decimal(str(cell))`. -/
structure SummaryRow where
  user_id : ℤ
  deposits : ℚ
  withdrawals : ℚ
  balance : ℚ
  roi_percent : ℚ
  updated_at : String
deriving DecidableEq

/-- The workbook: `Transactions` body rows and `Summary` body rows. -/
structure LedgerState where
  transactions : List Tx
  summary : List SummaryRow
deriving DecidableEq

/-- Specification-side exact rational sum of the amounts of user `u`'s
transactions of kind `k` as they sit in the log.  This is the value the sum
invariant speaks about; the program's accumulator computes the context-rounded
fold `ctxSumKind` instead. -/
def sumKind (u : ℤ) (k : TxType) (txs : List Tx) : ℚ :=
  ((txs.filter (fun t => decide (t.user_id = u) && decide (t.tx_type = k))).map Tx.amount).sum

/-- Distinct user ids encountered by the rebuild pass, in first-appearance
order: rows with a falsy (`0`) `user_id` are skipped by `if not row[0]`. -/
def usersOf (txs : List Tx) : List ℤ :=
  ((txs.map Tx.user_id).filter (fun u => decide (u ≠ 0))).dedup

/-- Round a rational to the nearest integer, ties to even — the rounding of
`decimal`'s default ROUND_HALF_EVEN. -/
def roundHalfEvenQ (x : ℚ) : ℤ :=
  let f := ⌊x⌋
  if x - f < 1 / 2 then f
  else if (1 : ℚ) / 2 < x - f then f + 1
  else if Even f then f else f + 1

/-- Ideal (total) half-even rounding to two decimal places: the value
`round(roi, 2)` returns whenever it does not overflow the context
precision. -/
def round2 (x : ℚ) : ℚ :=
  (roundHalfEvenQ (x * 100) : ℚ) / 100

/-- Absolute value. -/
def qabs (x : ℚ) : ℚ := if x < 0 then -x else x

/-- Digit count of `n` in base `b` via a fuel-bounded recursion; with fuel `f`
it is exact for every `n < b ^ f`. -/
def digitsFuel (b : ℕ) : ℕ → ℕ → ℕ
  | 0, _ => 0
  | f + 1, n => if n < b then 1 else 1 + digitsFuel b f (n / b)

/-- Decimal digit count, exact below `10 ^ 100`. -/
def digits10 (n : ℕ) : ℕ := digitsFuel 10 100 n

/-- Binary digit count, exact below `2 ^ 1200`. -/
def digits2 (n : ℕ) : ℕ := digitsFuel 2 1200 n

/-- Floor of the base-10 logarithm of a nonzero rational (of `qabs x`). -/
def floorLog10 (x : ℚ) : ℤ :=
  let k : ℤ := (digits10 x.num.natAbs : ℤ) - (digits10 x.den : ℤ)
  if qabs x < (10 : ℚ) ^ k then k - 1 else k

/-- Floor of the base-2 logarithm of a nonzero rational (of `qabs x`). -/
def floorLog2 (x : ℚ) : ℤ :=
  let k : ℤ := (digits2 x.num.natAbs : ℤ) - (digits2 x.den : ℤ)
  if qabs x < (2 : ℚ) ^ k then k - 1 else k

/-- Correctly rounded (half-even) value of `x` at `p` significant decimal
digits — the rounding the default decimal context applies at precision
`p = 28`. -/
def roundSig (p : ℕ) (x : ℚ) : ℚ :=
  if x = 0 then 0
  else
    let q : ℤ := floorLog10 x - (p : ℤ) + 1
    (roundHalfEvenQ (x / (10 : ℚ) ^ q) : ℚ) * (10 : ℚ) ^ q

/-- IEEE-754 binary64 round-to-nearest-even value of a rational — what
`float(Decimal)` stores (subnormals clamp at exponent `-1074`; overflow to
infinity is unreachable at this program's magnitudes). -/
def toBinary64 (x : ℚ) : ℚ :=
  if x = 0 then 0
  else
    let q : ℤ := max (floorLog2 x - 52) (-1074)
    (roundHalfEvenQ (x / (2 : ℚ) ^ q) : ℚ) * (2 : ℚ) ^ q

/-- Search for the shortest digit count whose correctly rounded decimal
converts back to the binary64 value `d`. -/
def floatReprSearch : List ℕ → ℚ → ℚ
  | [], d => roundSig 17 d
  | k :: ks, d => if toBinary64 (roundSig k d) = d then roundSig k d else floatReprSearch ks d

/-- Value of Python's `str` on a binary64 value: the shortest correctly
rounded decimal (at most 17 significant digits) that converts back to the
same binary64 value. -/
def floatRepr (d : ℚ) : ℚ :=
  floatReprSearch [1, 2, 3, 4, 5, 6, 7, 8, 9, 10, 11, 12, 13, 14, 15, 16] d

/-- The store-then-load conversion every numeric worksheet cell undergoes:
`float(value)` on write, `Decimal(str(cell))` on read. -/
def pyRoundTrip (x : ℚ) : ℚ := floatRepr (toBinary64 x)

/-- `Decimal` addition under the default context: the exact sum correctly
rounded to 28 significant digits. -/
def ctxAdd (a b : ℚ) : ℚ := roundSig 28 (a + b)

/-- `Decimal` subtraction under the default context. -/
def ctxSub (a b : ℚ) : ℚ := roundSig 28 (a - b)

/-- `Decimal` multiplication under the default context. -/
def ctxMul (a b : ℚ) : ℚ := roundSig 28 (a * b)

/-- `Decimal` division under the default context (callers guard the
denominator away from zero). -/
def ctxDiv (a b : ℚ) : ℚ := roundSig 28 (a / b)

/-- The per-user accumulator of `_rebuild_summary`:
`user_stats[uid][tx_type] += amount` folds the stored amounts of kind `k` in
log order with context additions starting from `Decimal("0")`. -/
def ctxSumKind (u : ℤ) (k : TxType) (txs : List Tx) : ℚ :=
  ((txs.filter (fun t => decide (t.user_id = u) && decide (t.tx_type = k))).map
    Tx.amount).foldl ctxAdd 0

/-- `round(roi, 2)`: context quantize to exponent `-2`, half-even; raises
`InvalidOperation` (modelled as `none`) when the rounded coefficient needs
more than 28 digits. -/
def roundQuant2 (x : ℚ) : Option ℚ :=
  if (roundHalfEvenQ (x * 100)).natAbs < 10 ^ 28 then
    some ((roundHalfEvenQ (x * 100) : ℚ) / 100)
  else none

/-- The `Summary` row computed for user `u`: context sums, context balance,
context ROI guarded by `deposits > 0`, fallible 2-decimal rounding, and the
`float` store / `Decimal(str(...))` load round-trip of each numeric cell.
`none` models the raised `InvalidOperation`. -/
def mkSummaryRow (txs : List Tx) (now : String) (u : ℤ) : Option SummaryRow :=
  match roundQuant2 (if 0 < ctxSumKind u .deposit txs then
      ctxMul (ctxDiv (ctxSub (ctxSumKind u .withdraw txs) (ctxSumKind u .deposit txs))
        (ctxSumKind u .deposit txs)) 100
    else 0) with
  | none => none
  | some r2 => some
    { user_id := u
      deposits := pyRoundTrip (ctxSumKind u .deposit txs)
      withdrawals := pyRoundTrip (ctxSumKind u .withdraw txs)
      balance := pyRoundTrip (ctxSub (ctxSumKind u .deposit txs) (ctxSumKind u .withdraw txs))
      roi_percent := pyRoundTrip r2
      updated_at := now }

/-- Emit one row per user id, aborting (like the raised exception) as soon as
one row fails. -/
def buildRows (txs : List Tx) (now : String) : List ℤ → Option (List SummaryRow)
  | [] => some []
  | u :: us =>
    match mkSummaryRow txs now u with
    | none => none
    | some r =>
      match buildRows txs now us with
      | none => none
      | some rs => some (r :: rs)

/-- `LedgerStorage._rebuild_summary`: one row per accumulated user id in
ascending `user_id` order (`sorted(user_stats.items())`).  `none` models the
raised `InvalidOperation`, in which case the workbook is never saved and the
durable state is unchanged. -/
def rebuild_summary (txs : List Tx) (now : String) : Option (List SummaryRow) :=
  buildRows txs now (List.insertionSort (· ≤ ·) (usersOf txs))

/-- `LedgerStorage.add_transaction`: append one record (the amount cell holds
`float(amount)` and is only ever read back through `Decimal(str(...))`, so the
stored amount is its store/load round-trip value), rebuild the summary, save.
`none`: the rebuild raised and the durable state is unchanged. -/
def add_transaction (s : LedgerState) (u : ℤ) (k : TxType) (a : ℚ) (now : String) :
    Option LedgerState :=
  match rebuild_summary (s.transactions ++ [⟨u, k, pyRoundTrip a, now⟩]) now with
  | none => none
  | some sm => some ⟨s.transactions ++ [⟨u, k, pyRoundTrip a, now⟩], sm⟩

/-- `LedgerStorage.reset_user`: keep exactly the records whose `user_id`
differs from `u` (in order), rebuild the summary, save.  `none`: the rebuild
raised and the durable state is unchanged. -/
def reset_user (s : LedgerState) (u : ℤ) (now : String) : Option LedgerState :=
  match rebuild_summary (s.transactions.filter (fun t => decide (t.user_id ≠ u))) now with
  | none => none
  | some sm => some ⟨s.transactions.filter (fun t => decide (t.user_id ≠ u)), sm⟩

/-- `LedgerStorage.get_user_stats`: first summary row with a truthy `user_id`
equal to `u`, else the zero tuple. -/
def get_user_stats (s : LedgerState) (u : ℤ) : ℚ × ℚ × ℚ × ℚ :=
  match s.summary.find? (fun r => decide (r.user_id ≠ 0 ∧ r.user_id = u)) with
  | some r => (r.deposits, r.withdrawals, r.balance, r.roi_percent)
  | none => (0, 0, 0, 0)

/-- Python `rows[-limit:]` for an `int` limit: the last `limit` elements when
`limit ≥ 1`, the whole list when `limit = 0`, and `rows[(-limit):]` when
`limit < 0`. -/
def pyTail {α : Type} (limit : ℤ) (l : List α) : List α :=
  if 0 ≤ -limit then l.drop (min (-limit).toNat l.length)
  else l.drop (l.length - min limit.toNat l.length)

/-- The `(type, amount, timestamp)` triples `get_user_history` collects for
user `u`, in log order (rows with a falsy `user_id` are skipped). -/
def user_rows (txs : List Tx) (u : ℤ) : List (TxType × ℚ × String) :=
  (txs.filter (fun t => decide (t.user_id ≠ 0 ∧ t.user_id = u))).map
    (fun t => (t.tx_type, t.amount, t.timestamp))

/-- `LedgerStorage.get_user_history`: `list(reversed(rows[-limit:]))`. -/
def get_user_history (s : LedgerState) (u : ℤ) (limit : ℤ) :
    List (TxType × ℚ × String) :=
  (pyTail limit (user_rows s.transactions u)).reverse

/-- A mutation of the ledger: `add_transaction` or `reset_user`. -/
inductive LedgerOp where
  | addTx (u : ℤ) (k : TxType) (a : ℚ) (now : String)
  | resetUsr (u : ℤ) (now : String)

/-- The recomputation timestamp a mutation uses. -/
def opNow : LedgerOp → String
  | .addTx _ _ _ now => now
  | .resetUsr _ now => now

/-- Apply one mutation; `none` models the raised exception (durable state
unchanged). -/
def applyOp (s : LedgerState) : LedgerOp → Option LedgerState
  | .addTx u k a now => add_transaction s u k a now
  | .resetUsr u now => reset_user s u now

/-- The fresh workbook created by `_init_workbook`: both sheets empty
(header rows are not modelled). -/
def initialState : LedgerState := ⟨[], []⟩

/-- Occurrences of a character in a list (used to reason about the grammar). -/
def countCh (a : Char) : List Char → ℕ
  | [] => 0
  | c :: t => (if c = a then 1 else 0) + countCh a t

/-! ### Lemmas about the decimal grammar -/

theorem countCh_append (a : Char) (l m : List Char) :
    countCh a (l ++ m) = countCh a l + countCh a m := by
  induction l with
  | nil => simp [countCh]
  | cons c t ih => simp [countCh, ih]; omega

theorem countCh_pos_iff_mem (a : Char) (l : List Char) :
    1 ≤ countCh a l ↔ a ∈ l := by
  induction l with
  | nil => simp [countCh]
  | cons c t ih =>
    by_cases h : c = a
    · subst h; simp [countCh]
    · simp [countCh, h, ih, Ne.symm h]

theorem dval_pos_iff (neg : Bool) (c : ℕ) (e : ℤ) :
    0 < dval neg c e ↔ (neg = false ∧ 0 < c) := by
  have hp : (0 : ℚ) < (10 : ℚ) ^ e := by positivity
  cases neg with
  | false =>
    have h1 : dval false c e = (c : ℚ) * (10 : ℚ) ^ e := by simp [dval]
    rw [h1]
    constructor
    · intro h
      rcases Nat.eq_zero_or_pos c with h0 | h0
      · rw [h0] at h; simp at h
      · exact ⟨rfl, h0⟩
    · rintro ⟨-, hc⟩
      exact mul_pos (by exact_mod_cast hc) hp
  | true =>
    have h1 : dval true c e = -((c : ℚ) * (10 : ℚ) ^ e) := by
      simp [dval]
    rw [h1]
    constructor
    · intro h
      exfalso
      have h2 : (0 : ℚ) ≤ (c : ℚ) * (10 : ℚ) ^ e :=
        mul_nonneg (by positivity) hp.le
      linarith
    · rintro ⟨h, -⟩
      exact absurd h (by simp)

theorem countCh_dot_dropWhile (l : List Char) :
    countCh '.' (l.dropWhile isWs) = countCh '.' l := by
  induction l with
  | nil => rfl
  | cons c t ih =>
    by_cases h : isWs c
    · have hne : c ≠ '.' := by rintro rfl; simp [isWs] at h
      rw [List.dropWhile_cons_of_pos h, ih]
      simp [countCh, hne]
    · rw [List.dropWhile_cons_of_neg h]

theorem countCh_dot_reverse (l : List Char) :
    countCh '.' l.reverse = countCh '.' l := by
  induction l with
  | nil => rfl
  | cons c t ih =>
    rw [List.reverse_cons, countCh_append, ih]
    simp [countCh]
    omega

theorem countCh_dot_strip (l : List Char) :
    countCh '.' (stripList l) = countCh '.' l := by
  unfold stripList
  rw [countCh_dot_reverse, countCh_dot_dropWhile, countCh_dot_reverse,
    countCh_dot_dropWhile]

theorem countCh_dot_underscores (l : List Char) :
    countCh '.' (l.filter (fun c => c != '_')) = countCh '.' l := by
  induction l with
  | nil => rfl
  | cons c t ih =>
    by_cases h : c = '_'
    · subst h
      rw [List.filter_cons_of_neg (by decide)]
      simp [countCh, ih]
    · rw [List.filter_cons_of_pos (by simpa using h)]
      simp [countCh, ih]

theorem countCh_dot_splitSign (l : List Char) :
    countCh '.' (splitSign l).2 = countCh '.' l := by
  cases l with
  | nil => rfl
  | cons c t =>
    unfold splitSign
    by_cases h1 : c = '+'
    · subst h1; simp [countCh]
    · by_cases h2 : c = '-'
      · subst h2; simp [h1, countCh]
      · simp [h1, h2]

theorem countCh_dot_toLower (l : List Char) :
    countCh '.' l ≤ countCh '.' (l.map Char.toLower) := by
  induction l with
  | nil => simp [countCh]
  | cons c t ih =>
    rw [List.map_cons]
    by_cases h : c = '.'
    · subst h
      have hl : Char.toLower '.' = '.' := by decide
      rw [hl]
      simp [countCh]
      omega
    · simp only [countCh, if_neg h]
      have : (if Char.toLower c = '.' then 1 else 0) + countCh '.' (t.map Char.toLower) ≥
          countCh '.' (t.map Char.toLower) := by omega
      omega

theorem countCh_dot_commaToDot (l : List Char) :
    countCh '.' (commaToDot l) = countCh ',' l + countCh '.' l := by
  induction l with
  | nil => rfl
  | cons c t ih =>
    unfold commaToDot at ih ⊢
    rw [List.map_cons]
    by_cases h1 : c = ','
    · subst h1
      simp [countCh, ih]
      omega
    · by_cases h2 : c = '.'
      · subst h2
        simp [countCh, ih]
        omega
      · simp [countCh, h1, h2, ih]

theorem countCh_dot_all_digits {l : List Char} (h : l.all Char.isDigit = true) :
    countCh '.' l = 0 := by
  induction l with
  | nil => rfl
  | cons c t ih =>
    simp only [List.all_cons, Bool.and_eq_true] at h
    have hc : c ≠ '.' := by
      intro he
      rw [he] at h
      simp at h
    simp [countCh, hc, ih h.2]

theorem splitAtExp_none {l : List Char} (h : (splitAtExp l).2 = none) :
    (splitAtExp l).1 = l := by
  induction l with
  | nil => rfl
  | cons c t ih =>
    by_cases hc : c = 'e' ∨ c = 'E'
    · simp [splitAtExp, hc] at h
    · simp only [splitAtExp, if_neg hc] at h ⊢
      rw [ih h]

theorem splitAtExp_some {l es : List Char} (h : (splitAtExp l).2 = some es) :
    ∃ c, (c = 'e' ∨ c = 'E') ∧ l = (splitAtExp l).1 ++ c :: es := by
  induction l with
  | nil => simp [splitAtExp] at h
  | cons c t ih =>
    by_cases hc : c = 'e' ∨ c = 'E'
    · have h1 : splitAtExp (c :: t) = ([], some t) := by simp [splitAtExp, hc]
      rw [h1] at h ⊢
      have h2 : t = es := by simpa using h
      subst h2
      exact ⟨c, hc, by simp⟩
    · have h1 : splitAtExp (c :: t) = (c :: (splitAtExp t).1, (splitAtExp t).2) := by
        simp [splitAtExp, hc]
      rw [h1] at h ⊢
      have h2 : (splitAtExp t).2 = some es := by simpa using h
      obtain ⟨d, hd, he⟩ := ih h2
      refine ⟨d, hd, ?_⟩
      rw [List.cons_append]
      exact congrArg (c :: ·) he

theorem splitAtDot_none {l : List Char} (h : (splitAtDot l).2 = none) :
    (splitAtDot l).1 = l := by
  induction l with
  | nil => rfl
  | cons c t ih =>
    by_cases hc : c = '.'
    · simp [splitAtDot, hc] at h
    · simp only [splitAtDot, if_neg hc] at h ⊢
      rw [ih h]

theorem splitAtDot_some {l f : List Char} (h : (splitAtDot l).2 = some f) :
    l = (splitAtDot l).1 ++ '.' :: f := by
  induction l with
  | nil => simp [splitAtDot] at h
  | cons c t ih =>
    by_cases hc : c = '.'
    · have h1 : splitAtDot (c :: t) = ([], some t) := by simp [splitAtDot, hc]
      rw [h1] at h ⊢
      have h2 : t = f := by simpa using h
      subst h2
      simp [hc]
    · have h1 : splitAtDot (c :: t) = (c :: (splitAtDot t).1, (splitAtDot t).2) := by
        simp [splitAtDot, hc]
      rw [h1] at h ⊢
      have h2 : (splitAtDot t).2 = some f := by simpa using h
      have he := ih h2
      simp only [List.cons_append]
      exact congrArg (c :: ·) he

theorem splitAtDot_fst_no_dot (l : List Char) : countCh '.' (splitAtDot l).1 = 0 := by
  induction l with
  | nil => rfl
  | cons c t ih =>
    by_cases hc : c = '.'
    · simp [splitAtDot, hc, countCh]
    · simp [splitAtDot, hc, countCh, ih]

theorem splitAtDot_none_no_dot {l : List Char} (h : (splitAtDot l).2 = none) :
    countCh '.' l = 0 := by
  rw [← splitAtDot_none h]
  exact splitAtDot_fst_no_dot l

theorem all_digits_eq_false_of_dot {l : List Char} (h : '.' ∈ l) :
    l.all Char.isDigit = false := by
  cases hb : l.all Char.isDigit
  · rfl
  · exfalso
    have := List.all_eq_true.mp hb '.' h
    simp at this

theorem mantissaOk_false {mant : List Char} (h : 2 ≤ countCh '.' mant) :
    mantissaOk mant = false := by
  cases hD : (splitAtDot mant).2 with
  | none =>
    have h0 := splitAtDot_none_no_dot hD
    omega
  | some f =>
    have hsp := splitAtDot_some hD
    have hip := splitAtDot_fst_no_dot mant
    have hcount : countCh '.' mant = countCh '.' (splitAtDot mant).1 + (1 + countCh '.' f) := by
      conv_lhs => rw [hsp]
      rw [countCh_append]
      simp [countCh]
    have hf : 1 ≤ countCh '.' f := by omega
    have hmem : '.' ∈ f := (countCh_pos_iff_mem _ _).mp hf
    have hall : f.all Char.isDigit = false := all_digits_eq_false_of_dot hmem
    unfold mantissaOk
    rw [hD]
    simp [hall]

theorem parseFinitePart_two_dots (neg : Bool) {rest : List Char}
    (h : 2 ≤ countCh '.' rest) : parseFinitePart neg rest = none := by
  cases hE : (splitAtExp rest).2 with
  | none =>
    have hm : (splitAtExp rest).1 = rest := splitAtExp_none hE
    have hmant : 2 ≤ countCh '.' (splitAtExp rest).1 := by rw [hm]; exact h
    have hok := mantissaOk_false hmant
    simp only [parseFinitePart]
    rw [hE]
    simp [parseExpPart, hok]
  | some es =>
    obtain ⟨c, hc, hsplit⟩ := splitAtExp_some hE
    cases hP : parseExpPart (some es) with
    | none =>
      simp only [parseFinitePart]
      rw [hE, hP]
    | some ev =>
      have hes : countCh '.' es = 0 := by
        cases hdig : (splitSign es).2.all Char.isDigit with
        | true =>
          rw [← countCh_dot_splitSign es]
          exact countCh_dot_all_digits hdig
        | false =>
          exfalso
          simp only [parseExpPart] at hP
          rw [hdig] at hP
          simp at hP
      have hcns : c ≠ '.' := by rcases hc with rfl | rfl <;> decide
      have hcnt : countCh '.' rest = countCh '.' (splitAtExp rest).1 + countCh '.' es := by
        conv_lhs => rw [hsplit]
        rw [countCh_append]
        simp [countCh, hcns]
      have hmant : 2 ≤ countCh '.' (splitAtExp rest).1 := by omega
      have hok := mantissaOk_false hmant
      simp only [parseFinitePart]
      rw [hE, hP]
      simp [hok]

theorem isNanLit_no_dot {l : List Char} (h : isNanLit l = true) :
    countCh '.' l = 0 := by
  unfold isNanLit at h
  split at h
  · simp [countCh, countCh_dot_all_digits h]
  · simp [countCh, countCh_dot_all_digits h]
  · exact absurd h (by simp)

theorem parseDecimalString_two_dots {l : List Char} (h : 2 ≤ countCh '.' l) :
    parseDecimalString l = none := by
  have hclean : 2 ≤ countCh '.' ((stripList l).filter (fun c => c != '_')) := by
    rw [countCh_dot_underscores, countCh_dot_strip]
    exact h
  have hrest : 2 ≤ countCh '.' (splitSign ((stripList l).filter (fun c => c != '_'))).2 := by
    rw [countCh_dot_splitSign]
    exact hclean
  have hlow : 2 ≤ countCh '.'
      ((splitSign ((stripList l).filter (fun c => c != '_'))).2.map Char.toLower) :=
    le_trans hrest (countCh_dot_toLower _)
  have hni : ¬ ((splitSign ((stripList l).filter (fun c => c != '_'))).2.map Char.toLower
      = "inf".data ∨
      (splitSign ((stripList l).filter (fun c => c != '_'))).2.map Char.toLower
      = "infinity".data) := by
    rintro (he | he) <;> rw [he] at hlow <;> exact absurd hlow (by decide)
  have hnn : isNanLit ((splitSign ((stripList l).filter (fun c => c != '_'))).2.map
      Char.toLower) = false := by
    cases hb : isNanLit ((splitSign ((stripList l).filter (fun c => c != '_'))).2.map
      Char.toLower)
    · rfl
    · exfalso
      have := isNanLit_no_dot hb
      omega
  simp only [parseDecimalString]
  rw [if_neg hni, hnn]
  simp only [Bool.false_eq_true, if_false]
  exact parseFinitePart_two_dots _ hrest

/-! ### Lemmas about parse_amount -/

theorem quantize2_some_iff (c : ℕ) (e : ℤ) (x : ℕ) :
    quantize2 c e = some x ↔ (quantCoeff c e < 10 ^ 28 ∧ x = quantCoeff c e) := by
  unfold quantize2
  by_cases h : quantCoeff c e < 10 ^ 28
  · rw [if_pos h]
    constructor
    · intro he
      exact ⟨h, (Option.some_inj.mp he).symm⟩
    · rintro ⟨-, rfl⟩
      rfl
  · rw [if_neg h]
    constructor
    · intro he
      exact absurd he (by simp)
    · rintro ⟨hlt, -⟩
      exact absurd hlt h

theorem quantize2_none_iff (c : ℕ) (e : ℤ) :
    quantize2 c e = none ↔ ¬ (quantCoeff c e < 10 ^ 28) := by
  unfold quantize2
  by_cases h : quantCoeff c e < 10 ^ 28
  · rw [if_pos h]
    constructor
    · intro he
      exact absurd he (by simp)
    · intro hn
      exact absurd h hn
  · rw [if_neg h]
    exact ⟨fun _ => h, fun _ => rfl⟩

theorem parse_amount_none_iff (raw : String) :
    parse_amount raw = none ↔ ¬ amountOk raw := by
  cases hpd : parseDecimalString (normalizedOf raw) with
  | none =>
    simp only [parse_amount, hpd]
    constructor
    · rintro - ⟨neg, c, e, hq, -, -⟩
      rw [hpd] at hq
      exact absurd hq (by simp)
    · intro _
      trivial
  | some d =>
    cases d with
    | nan =>
      simp only [parse_amount, hpd]
      constructor
      · rintro - ⟨neg, c, e, hq, -, -⟩
        rw [hpd] at hq
        exact absurd hq (by simp)
      · intro _
        trivial
    | infinite b =>
      simp only [parse_amount, hpd]
      constructor
      · rintro - ⟨neg, c, e, hq, -, -⟩
        rw [hpd] at hq
        exact absurd hq (by simp)
      · intro _
        trivial
    | finite neg c e =>
      simp only [parse_amount, hpd]
      by_cases hneg : (neg = true) ∨ c = 0
      · rw [if_pos hneg]
        constructor
        · rintro - ⟨neg', c', e', hq, hpos, -⟩
          rw [hpd] at hq
          simp only [Option.some.injEq, PyDecimal.finite.injEq] at hq
          obtain ⟨rfl, rfl, rfl⟩ := hq
          obtain ⟨hf, hcpos⟩ := (dval_pos_iff neg c e).mp hpos
          rcases hneg with h | h
          · rw [hf] at h
            exact absurd h (by simp)
          · omega
        · intro _
          rfl
      · rw [if_neg hneg]
        push_neg at hneg
        have hnf : neg = false := by
          cases neg
          · rfl
          · exact absurd rfl hneg.1
        cases hq2 : quantize2 c e with
        | some c2 =>
          constructor
          · intro habs
            exact absurd habs (by simp)
          · intro hcon
            exfalso
            apply hcon
            refine ⟨neg, c, e, hpd, ?_, ?_⟩
            · rw [dval_pos_iff]
              exact ⟨hnf, Nat.pos_of_ne_zero hneg.2⟩
            · exact ((quantize2_some_iff c e c2).mp hq2).1
        | none =>
          constructor
          · rintro - ⟨neg', c', e', hq, -, hfit⟩
            rw [hpd] at hq
            simp only [Option.some.injEq, PyDecimal.finite.injEq] at hq
            obtain ⟨rfl, rfl, rfl⟩ := hq
            exact absurd hfit ((quantize2_none_iff c e).mp hq2)
          · intro _
            rfl

theorem parse_amount_some_shape {raw : String} {q : ℚ}
    (h : parse_amount raw = some q) : ∃ n : ℕ, q = (n : ℚ) / 100 := by
  unfold parse_amount at h
  split at h
  · rename_i neg c e _
    split at h
    · exact absurd h (by simp)
    · split at h
      · rename_i c2 hq2
        exact ⟨c2, by simpa using h.symm⟩
      · exact absurd h (by simp)
  · exact absurd h (by simp)

theorem parse_amount_nonneg {raw : String} {q : ℚ}
    (h : parse_amount raw = some q) : 0 ≤ q := by
  obtain ⟨n, rfl⟩ := parse_amount_some_shape h
  positivity


/-! ### Lemmas about the ledger -/

theorem mkSummaryRow_fields {txs : List Tx} {now : String} {u : ℤ} {r : SummaryRow}
    (h : mkSummaryRow txs now u = some r) :
    r.user_id = u ∧
    r.deposits = pyRoundTrip (ctxSumKind u .deposit txs) ∧
    r.withdrawals = pyRoundTrip (ctxSumKind u .withdraw txs) ∧
    r.balance = pyRoundTrip (ctxSub (ctxSumKind u .deposit txs) (ctxSumKind u .withdraw txs)) ∧
    ∃ q2, roundQuant2 (if 0 < ctxSumKind u .deposit txs then
        ctxMul (ctxDiv (ctxSub (ctxSumKind u .withdraw txs) (ctxSumKind u .deposit txs))
          (ctxSumKind u .deposit txs)) 100
      else 0) = some q2 ∧ r.roi_percent = pyRoundTrip q2 := by
  unfold mkSummaryRow at h
  split at h
  · exact absurd h (by simp)
  · rename_i q2 hq2
    have hr : r = _ := (Option.some_inj.mp h).symm
    subst hr
    exact ⟨rfl, rfl, rfl, rfl, q2, hq2, rfl⟩

theorem buildRows_mem_some {txs : List Tx} {now : String} {l : List ℤ}
    {rows : List SummaryRow} (h : buildRows txs now l = some rows) :
    ∀ u ∈ l, ∃ r, mkSummaryRow txs now u = some r := by
  induction l generalizing rows with
  | nil =>
    intro u hu
    exact absurd hu (List.not_mem_nil u)
  | cons x xs ih =>
    unfold buildRows at h
    split at h
    · exact absurd h (by simp)
    · rename_i r hr
      split at h
      · exact absurd h (by simp)
      · rename_i rs hrs
        intro u hu
        rcases List.mem_cons.mp hu with rfl | hu'
        · exact ⟨r, hr⟩
        · exact ih hrs u hu'

theorem buildRows_mem_row {txs : List Tx} {now : String} {l : List ℤ}
    {rows : List SummaryRow} (h : buildRows txs now l = some rows) :
    ∀ r ∈ rows, ∃ u ∈ l, mkSummaryRow txs now u = some r := by
  induction l generalizing rows with
  | nil =>
    unfold buildRows at h
    have hr : rows = [] := (Option.some_inj.mp h).symm
    subst hr
    intro r hr
    exact absurd hr (List.not_mem_nil r)
  | cons x xs ih =>
    unfold buildRows at h
    split at h
    · exact absurd h (by simp)
    · rename_i r0 hr0
      split at h
      · exact absurd h (by simp)
      · rename_i rs hrs
        have hr : rows = r0 :: rs := (Option.some_inj.mp h).symm
        subst hr
        intro r hr
        rcases List.mem_cons.mp hr with rfl | hr'
        · exact ⟨x, List.mem_cons_self x xs, hr0⟩
        · obtain ⟨u, hu, hmk⟩ := ih hrs r hr'
          exact ⟨u, List.mem_cons_of_mem _ hu, hmk⟩

theorem buildRows_map_user {txs : List Tx} {now : String} : ∀ {l : List ℤ}
    {rows : List SummaryRow}, buildRows txs now l = some rows →
    rows.map SummaryRow.user_id = l := by
  intro l
  induction l with
  | nil =>
    intro rows h
    unfold buildRows at h
    have hr : rows = [] := (Option.some_inj.mp h).symm
    subst hr
    rfl
  | cons x xs ih =>
    intro rows h
    unfold buildRows at h
    split at h
    · exact absurd h (by simp)
    · rename_i r hr
      split at h
      · exact absurd h (by simp)
      · rename_i rs hrs
        have h2 : rows = r :: rs := (Option.some_inj.mp h).symm
        subst h2
        rw [List.map_cons, ih hrs, (mkSummaryRow_fields hr).1]

theorem buildRows_find? {txs : List Tx} {now : String} {l : List ℤ}
    {rows : List SummaryRow} (h : buildRows txs now l = some rows) (u : ℤ) :
    rows.find? (fun r => decide (r.user_id ≠ 0 ∧ r.user_id = u)) =
      if u ≠ 0 ∧ u ∈ l then mkSummaryRow txs now u else none := by
  induction l generalizing rows with
  | nil =>
    unfold buildRows at h
    have hr : rows = [] := (Option.some_inj.mp h).symm
    subst hr
    simp
  | cons x xs ih =>
    unfold buildRows at h
    split at h
    · exact absurd h (by simp)
    · rename_i r hr
      split at h
      · exact absurd h (by simp)
      · rename_i rs hrs
        have h2 : rows = r :: rs := (Option.some_inj.mp h).symm
        subst h2
        have hux := (mkSummaryRow_fields hr).1
        by_cases hx : x ≠ 0 ∧ x = u
        · rw [List.find?_cons_of_pos]
          · obtain ⟨hx0, rfl⟩ := hx
            rw [if_pos ⟨hx0, List.mem_cons_self x xs⟩, hr]
          · simp only [hux, decide_eq_true_eq]
            exact hx
        · rw [List.find?_cons_of_neg]
          · rw [ih hrs]
            by_cases h1 : u ≠ 0 ∧ u ∈ xs
            · rw [if_pos h1, if_pos ⟨h1.1, List.mem_cons_of_mem _ h1.2⟩]
            · rw [if_neg h1, if_neg ?_]
              rintro ⟨hu0, hmem⟩
              rcases List.mem_cons.mp hmem with rfl | hmem'
              · exact hx ⟨hu0, rfl⟩
              · exact h1 ⟨hu0, hmem'⟩
          · simp only [hux, decide_eq_true_eq]
            simpa using hx

theorem mem_usersOf (txs : List Tx) (u : ℤ) :
    u ∈ usersOf txs ↔ u ≠ 0 ∧ ∃ t ∈ txs, t.user_id = u := by
  unfold usersOf
  rw [List.mem_dedup, List.mem_filter]
  simp only [List.mem_map, decide_eq_true_eq]
  constructor
  · rintro ⟨⟨t, ht, hu⟩, hne⟩
    exact ⟨hne, t, ht, hu⟩
  · rintro ⟨hne, t, ht, hu⟩
    exact ⟨⟨t, ht, hu⟩, hne⟩

theorem ctxSumKind_eq_zero {txs : List Tx} {u : ℤ} {k : TxType}
    (h : ∀ t ∈ txs, t.user_id ≠ u) : ctxSumKind u k txs = 0 := by
  unfold ctxSumKind
  have hnil : txs.filter (fun t => decide (t.user_id = u) && decide (t.tx_type = k)) = [] := by
    rw [List.filter_eq_nil_iff]
    intro t ht
    simp [h t ht]
  rw [hnil]
  rfl

theorem pyRoundTrip_zero : pyRoundTrip 0 = 0 := by decide

theorem ctxSub_zero : ctxSub 0 0 = 0 := by
  norm_num [ctxSub, roundSig]

theorem roundQuant2_zero : roundQuant2 0 = some 0 := by
  norm_num [roundQuant2, roundHalfEvenQ]

theorem roundQuant2_eq_round2 {x y : ℚ} (h : roundQuant2 x = some y) : y = round2 x := by
  unfold roundQuant2 at h
  by_cases hc : (roundHalfEvenQ (x * 100)).natAbs < 10 ^ 28
  · rw [if_pos hc] at h
    have := (Option.some_inj.mp h).symm
    rw [this]
    rfl
  · rw [if_neg hc] at h
    exact absurd h (by simp)

theorem add_transaction_some_elim {s : LedgerState} {u : ℤ} {k : TxType} {a : ℚ}
    {now : String} {s' : LedgerState} (h : add_transaction s u k a now = some s') :
    s'.transactions = s.transactions ++ [⟨u, k, pyRoundTrip a, now⟩] ∧
    rebuild_summary s'.transactions now = some s'.summary := by
  unfold add_transaction at h
  split at h
  · exact absurd h (by simp)
  · rename_i sm hsm
    have h2 : s' = ⟨s.transactions ++ [⟨u, k, pyRoundTrip a, now⟩], sm⟩ :=
      (Option.some_inj.mp h).symm
    subst h2
    exact ⟨rfl, hsm⟩

theorem reset_user_some_elim {s : LedgerState} {u : ℤ} {now : String}
    {s' : LedgerState} (h : reset_user s u now = some s') :
    s'.transactions = s.transactions.filter (fun t => decide (t.user_id ≠ u)) ∧
    rebuild_summary s'.transactions now = some s'.summary := by
  unfold reset_user at h
  split at h
  · exact absurd h (by simp)
  · rename_i sm hsm
    have h2 : s' = ⟨s.transactions.filter (fun t => decide (t.user_id ≠ u)), sm⟩ :=
      (Option.some_inj.mp h).symm
    subst h2
    exact ⟨rfl, hsm⟩

theorem applyOp_rebuild {s : LedgerState} {op : LedgerOp} {s' : LedgerState}
    (h : applyOp s op = some s') :
    rebuild_summary s'.transactions (opNow op) = some s'.summary := by
  cases op with
  | addTx v k a now => exact (add_transaction_some_elim h).2
  | resetUsr v now => exact (reset_user_some_elim h).2

theorem get_user_stats_of_rebuild {txs : List Tx} {now : String} {sm : List SummaryRow}
    (h : rebuild_summary txs now = some sm) (u : ℤ) :
    (u ≠ 0 →
      (get_user_stats ⟨txs, sm⟩ u).1 = pyRoundTrip (ctxSumKind u .deposit txs) ∧
      (get_user_stats ⟨txs, sm⟩ u).2.1 = pyRoundTrip (ctxSumKind u .withdraw txs) ∧
      (get_user_stats ⟨txs, sm⟩ u).2.2.1 =
        pyRoundTrip (ctxSub (ctxSumKind u .deposit txs) (ctxSumKind u .withdraw txs))) ∧
    ((∀ t ∈ txs, t.user_id ≠ u) → get_user_stats ⟨txs, sm⟩ u = (0, 0, 0, 0)) := by
  unfold rebuild_summary at h
  have hfind := buildRows_find? h u
  constructor
  · intro hu
    by_cases hm : u ∈ List.insertionSort (· ≤ ·) (usersOf txs)
    · obtain ⟨r, hr⟩ := buildRows_mem_some h u hm
      have hstats : get_user_stats ⟨txs, sm⟩ u =
          (r.deposits, r.withdrawals, r.balance, r.roi_percent) := by
        unfold get_user_stats
        rw [hfind, if_pos ⟨hu, hm⟩, hr]
      obtain ⟨-, hd, hw, hb, -⟩ := mkSummaryRow_fields hr
      rw [hstats]
      exact ⟨hd, hw, hb⟩
    · have hnou : ∀ t ∈ txs, t.user_id ≠ u := fun t ht he =>
        hm ((List.perm_insertionSort _ _).mem_iff.mpr
          ((mem_usersOf txs u).mpr ⟨hu, t, ht, he⟩))
      have hstats : get_user_stats ⟨txs, sm⟩ u = (0, 0, 0, 0) := by
        unfold get_user_stats
        rw [hfind, if_neg (fun hc => hm hc.2)]
      rw [hstats, ctxSumKind_eq_zero hnou, ctxSumKind_eq_zero hnou, ctxSub_zero,
        pyRoundTrip_zero]
      exact ⟨rfl, rfl, rfl⟩
  · intro hno
    unfold get_user_stats
    rw [hfind, if_neg ?_]
    rintro ⟨hu0, hmem⟩
    obtain ⟨-, t, ht, hut⟩ := (mem_usersOf txs u).mp
      ((List.perm_insertionSort _ _).mem_iff.mp hmem)
    exact hno t ht hut

theorem pairwise_lt_of_sorted_nodup {l : List ℤ}
    (h1 : l.Sorted (· ≤ ·)) (h2 : l.Nodup) : l.Pairwise (· < ·) := by
  induction l with
  | nil => exact List.Pairwise.nil
  | cons a t ih =>
    have h1' := List.pairwise_cons.mp h1
    have h2' := List.pairwise_cons.mp h2
    exact List.Pairwise.cons
      (fun b hb => lt_of_le_of_ne (h1'.1 b hb) (h2'.1 b hb)) (ih h1'.2 h2'.2)

theorem pyTail_pos {α : Type} (N : ℤ) (hN : 1 ≤ N) (l : List α) :
    pyTail N l = l.drop (l.length - N.toNat) := by
  unfold pyTail
  rw [if_neg (by omega : ¬ (0 ≤ -N))]
  congr 1
  omega

theorem count_filter_of_pos {α : Type} [DecidableEq α] {p : α → Bool} {a : α}
    (h : p a = true) (l : List α) : (l.filter p).count a = l.count a := by
  induction l with
  | nil => rfl
  | cons x t ih =>
    by_cases hx : p x
    · rw [List.filter_cons_of_pos hx, List.count_cons, List.count_cons, ih]
    · rw [List.filter_cons_of_neg hx, ih, List.count_cons]
      have hax : (x == a) = false := by
        by_cases he : x = a
        · subst he
          exact absurd h hx
        · simpa using he
      rw [hax]
      simp

theorem user_rows_reset_nil {txs : List Tx} {u : ℤ}
    (h : ∀ t ∈ txs, t.user_id ≠ u) : user_rows txs u = [] := by
  unfold user_rows
  have h0 : txs.filter (fun t => decide (t.user_id ≠ 0 ∧ t.user_id = u)) = [] := by
    rw [List.filter_eq_nil_iff]
    intro t ht
    simp only [decide_eq_true_eq]
    rintro ⟨-, he⟩
    exact h t ht he
  rw [h0, List.map_nil]

theorem pyTail_nil {α : Type} (N : ℤ) : pyTail N ([] : List α) = [] := by
  unfold pyTail
  split <;> simp

/-! ### Claims -/

/-- C1 (amended): for every user `u ≠ 0` and every successful mutation, the
stats of `u` are the float store/load round-trips of the 28-digit context sums
of `u`'s stored deposit and withdraw amounts and of their context difference;
whenever the context rounding and the store/load round-trips are exact on
those sums — as for all ordinary amounts — the stats equal the exact log sums
and balance equals deposits minus withdrawals.  (User id 0 stays excluded:
the rebuild skips falsy `user_id` cells.) -/
theorem c1_stats_match_sums (s : LedgerState) (op : LedgerOp) (s' : LedgerState)
    (u : ℤ) (h : applyOp s op = some s') (hu : u ≠ 0) :
    ((get_user_stats s' u).1 = pyRoundTrip (ctxSumKind u .deposit s'.transactions) ∧
     (get_user_stats s' u).2.1 = pyRoundTrip (ctxSumKind u .withdraw s'.transactions) ∧
     (get_user_stats s' u).2.2.1 = pyRoundTrip (ctxSub (ctxSumKind u .deposit s'.transactions)
       (ctxSumKind u .withdraw s'.transactions))) ∧
    (ctxSumKind u .deposit s'.transactions = sumKind u .deposit s'.transactions →
     ctxSumKind u .withdraw s'.transactions = sumKind u .withdraw s'.transactions →
     pyRoundTrip (sumKind u .deposit s'.transactions) = sumKind u .deposit s'.transactions →
     pyRoundTrip (sumKind u .withdraw s'.transactions) = sumKind u .withdraw s'.transactions →
     ctxSub (sumKind u .deposit s'.transactions) (sumKind u .withdraw s'.transactions) =
       sumKind u .deposit s'.transactions - sumKind u .withdraw s'.transactions →
     pyRoundTrip (sumKind u .deposit s'.transactions - sumKind u .withdraw s'.transactions) =
       sumKind u .deposit s'.transactions - sumKind u .withdraw s'.transactions →
      (get_user_stats s' u).1 = sumKind u .deposit s'.transactions ∧
      (get_user_stats s' u).2.1 = sumKind u .withdraw s'.transactions ∧
      (get_user_stats s' u).2.2.1 = (get_user_stats s' u).1 - (get_user_stats s' u).2.1) := by
  have hrb := applyOp_rebuild h
  have hmain := (get_user_stats_of_rebuild hrb u).1 hu
  refine ⟨hmain, ?_⟩
  intro hD hW hrD hrW hsub hrB
  obtain ⟨h1, h2, h3⟩ := hmain
  rw [hD, hrD] at h1
  rw [hW, hrW] at h2
  rw [hD, hW, hsub, hrB] at h3
  exact ⟨h1, h2, by rw [h3, h1, h2]⟩

set_option maxRecDepth 1000000 in
unseal Rat.add Rat.mul Rat.inv Rat.sub in
/-- C1 witness: the amended statement at a one-deposit state where the whole
numeric pipeline is lossless. -/
theorem c1_witness :
    (get_user_stats ⟨[⟨7, .deposit, 5, "t"⟩], [⟨7, 5, 0, 5, -100, "t"⟩]⟩ 7).1 =
      sumKind 7 .deposit [⟨7, .deposit, 5, "t"⟩] ∧
    (get_user_stats ⟨[⟨7, .deposit, 5, "t"⟩], [⟨7, 5, 0, 5, -100, "t"⟩]⟩ 7).2.1 =
      sumKind 7 .withdraw [⟨7, .deposit, 5, "t"⟩] ∧
    (get_user_stats ⟨[⟨7, .deposit, 5, "t"⟩], [⟨7, 5, 0, 5, -100, "t"⟩]⟩ 7).2.2.1 =
      (get_user_stats ⟨[⟨7, .deposit, 5, "t"⟩], [⟨7, 5, 0, 5, -100, "t"⟩]⟩ 7).1 -
        (get_user_stats ⟨[⟨7, .deposit, 5, "t"⟩], [⟨7, 5, 0, 5, -100, "t"⟩]⟩ 7).2.1 :=
  (c1_stats_match_sums initialState (.addTx 7 .deposit 5 "t")
      ⟨[⟨7, .deposit, 5, "t"⟩], [⟨7, 5, 0, 5, -100, "t"⟩]⟩ 7 (by decide) (by decide)).2
    (by decide) (by decide) (by decide) (by decide) (by decide) (by decide)

set_option maxRecDepth 1000000 in
unseal Rat.add Rat.mul Rat.inv Rat.sub in
/-- C1 counterexample: two reachable failures of the claim as stated.  A
deposit of 5 by user 0 is invisible to `get_user_stats` (the rebuild skips
falsy `user_id` cells); and after deposits of 9.9e25, 9.9e25 and 0.01 by
user 7, the 28-significant-digit context addition silently drops the final
cent, so the stored deposits differ from the exact sum of the logged
amounts. -/
theorem c1_counterexample :
    applyOp initialState (.addTx 0 .deposit 5 "t") =
      some ⟨[⟨0, .deposit, 5, "t"⟩], []⟩ ∧
    (get_user_stats ⟨[⟨0, .deposit, 5, "t"⟩], []⟩ 0).1 ≠
      sumKind 0 .deposit [⟨0, .deposit, 5, "t"⟩] ∧
    applyOp initialState (.addTx 7 .deposit 99000000000000000000000000 "t") =
      some ⟨[⟨7, .deposit, 99000000000000000000000000, "t"⟩],
        [⟨7, 99000000000000000000000000, 0, 99000000000000000000000000, -100, "t"⟩]⟩ ∧
    applyOp ⟨[⟨7, .deposit, 99000000000000000000000000, "t"⟩],
        [⟨7, 99000000000000000000000000, 0, 99000000000000000000000000, -100, "t"⟩]⟩
      (.addTx 7 .deposit 99000000000000000000000000 "t") =
      some ⟨[⟨7, .deposit, 99000000000000000000000000, "t"⟩,
        ⟨7, .deposit, 99000000000000000000000000, "t"⟩],
        [⟨7, 198000000000000000000000000, 0, 198000000000000000000000000, -100, "t"⟩]⟩ ∧
    applyOp ⟨[⟨7, .deposit, 99000000000000000000000000, "t"⟩,
        ⟨7, .deposit, 99000000000000000000000000, "t"⟩],
        [⟨7, 198000000000000000000000000, 0, 198000000000000000000000000, -100, "t"⟩]⟩
      (.addTx 7 .deposit (1 / 100) "t") =
      some ⟨[⟨7, .deposit, 99000000000000000000000000, "t"⟩,
        ⟨7, .deposit, 99000000000000000000000000, "t"⟩, ⟨7, .deposit, 1 / 100, "t"⟩],
        [⟨7, 198000000000000000000000000, 0, 198000000000000000000000000, -100, "t"⟩]⟩ ∧
    (get_user_stats ⟨[⟨7, .deposit, 99000000000000000000000000, "t"⟩,
        ⟨7, .deposit, 99000000000000000000000000, "t"⟩, ⟨7, .deposit, 1 / 100, "t"⟩],
        [⟨7, 198000000000000000000000000, 0, 198000000000000000000000000, -100, "t"⟩]⟩ 7).1 ≠
      sumKind 7 .deposit [⟨7, .deposit, 99000000000000000000000000, "t"⟩,
        ⟨7, .deposit, 99000000000000000000000000, "t"⟩, ⟨7, .deposit, 1 / 100, "t"⟩] := by
  decide

/-- C2 (amended): after every successful mutation, a user id has a `Summary`
row exactly when it is nonzero and occurs in the `Transactions` log, and the
summary rows are strictly sorted by `user_id` ascending.  (Rows with the falsy
user id 0 are skipped by the rebuild; a failed mutation leaves the durable
state unchanged.) -/
theorem c2_summary_rows (s : LedgerState) (op : LedgerOp) (s' : LedgerState)
    (h : applyOp s op = some s') :
    (∀ u : ℤ, (∃ r ∈ s'.summary, r.user_id = u) ↔
      (u ≠ 0 ∧ ∃ t ∈ s'.transactions, t.user_id = u)) ∧
    (s'.summary.map SummaryRow.user_id).Pairwise (· < ·) := by
  have hrb := applyOp_rebuild h
  unfold rebuild_summary at hrb
  have hmap := buildRows_map_user hrb
  constructor
  · intro u
    constructor
    · rintro ⟨r, hr, hru⟩
      have humem : u ∈ s'.summary.map SummaryRow.user_id := List.mem_map.mpr ⟨r, hr, hru⟩
      rw [hmap] at humem
      exact (mem_usersOf _ u).mp ((List.perm_insertionSort _ _).mem_iff.mp humem)
    · intro hu
      have hm : u ∈ List.insertionSort (· ≤ ·) (usersOf s'.transactions) :=
        (List.perm_insertionSort _ _).mem_iff.mpr ((mem_usersOf _ u).mpr hu)
      rw [← hmap] at hm
      exact List.mem_map.mp hm
  · rw [hmap]
    exact pairwise_lt_of_sorted_nodup (List.sorted_insertionSort _ _)
      ((List.perm_insertionSort _ _).nodup_iff.mpr (List.nodup_dedup _))

set_option maxRecDepth 1000000 in
unseal Rat.add Rat.mul Rat.inv Rat.sub in
/-- C2 witness: the statement at a one-deposit state. -/
theorem c2_witness :
    ((∃ r ∈ [(⟨7, 5, 0, 5, -100, "t"⟩ : SummaryRow)], r.user_id = 7) ↔
      ((7 : ℤ) ≠ 0 ∧ ∃ t ∈ [(⟨7, .deposit, 5, "t"⟩ : Tx)], t.user_id = 7)) ∧
    (([(⟨7, 5, 0, 5, -100, "t"⟩ : SummaryRow)]).map SummaryRow.user_id).Pairwise (· < ·) :=
  ⟨(c2_summary_rows initialState (.addTx 7 .deposit 5 "t")
      ⟨[⟨7, .deposit, 5, "t"⟩], [⟨7, 5, 0, 5, -100, "t"⟩]⟩ (by decide)).1 7,
   (c2_summary_rows initialState (.addTx 7 .deposit 5 "t")
      ⟨[⟨7, .deposit, 5, "t"⟩], [⟨7, 5, 0, 5, -100, "t"⟩]⟩ (by decide)).2⟩

set_option maxRecDepth 1000000 in
unseal Rat.add Rat.mul Rat.inv Rat.sub in
/-- C2 counterexample: after a deposit by user 0 the claimed set equality
between summary user ids and distinct log user ids fails, since the rebuild
emits no row for the falsy user id 0. -/
theorem c2_counterexample :
    applyOp initialState (.addTx 0 .deposit 5 "t") =
      some ⟨[⟨0, .deposit, 5, "t"⟩], []⟩ ∧
    ¬ (∀ u : ℤ, (∃ r ∈ ([] : List SummaryRow), r.user_id = u) ↔
        (∃ t ∈ [(⟨0, .deposit, 5, "t"⟩ : Tx)], t.user_id = u)) := by
  refine ⟨by decide, ?_⟩
  intro hcl
  have h0 := (hcl 0).mpr ⟨⟨0, .deposit, 5, "t"⟩, List.mem_cons_self _ _, rfl⟩
  obtain ⟨r, hr, -⟩ := h0
  exact absurd hr (List.not_mem_nil r)

unseal Rat.add Rat.mul Rat.inv Rat.sub in
/-- C3 (amended): `parse_amount` fails exactly when the normalized text is not
a valid finite decimal numeral, the parsed value is `≤ 0`, or quantizing to two
decimals would exceed the 28-significant-digit context precision; on success
the result is nonnegative (it can be `0.00` for positive inputs below `0.005`)
and quantized to exactly two fractional digits; the round-trip examples of the
specification hold. -/
theorem c3_parse_amount :
    (∀ raw : String, parse_amount raw = none ↔ ¬ amountOk raw) ∧
    (∀ (raw : String) (q : ℚ), parse_amount raw = some q →
      0 ≤ q ∧ ∃ n : ℕ, q = (n : ℚ) / 100) ∧
    parse_amount "1000" = some 1000 ∧
    parse_amount "1000,00" = some 1000 ∧
    parse_amount " 1000.00 " = some 1000 ∧
    parse_amount "-5" = none ∧
    parse_amount "abc" = none := by
  refine ⟨parse_amount_none_iff,
    fun raw q h => ⟨parse_amount_nonneg h, parse_amount_some_shape h⟩,
    ?_, ?_, ?_, ?_, ?_⟩ <;> decide

unseal Rat.add Rat.mul Rat.inv Rat.sub in
/-- C3 witness: the amended statement instantiated at concrete inputs. -/
theorem c3_witness :
    ¬ amountOk "abc" ∧ (0 ≤ (10 : ℚ) ∧ ∃ n : ℕ, (10 : ℚ) = (n : ℚ) / 100) :=
  ⟨(c3_parse_amount.1 "abc").mp (by decide),
   c3_parse_amount.2.1 "1_0" 10 (by decide)⟩

unseal Rat.add Rat.mul Rat.inv Rat.sub in
/-- C3 counterexample: `parse_amount "0.001"` succeeds with the value `0.00`,
which is not strictly positive, and `parse_amount "1e26"` fails although the
text is a valid decimal numeral with a strictly positive value (the quantize
step overflows the 28-digit context precision). -/
theorem c3_counterexample :
    parse_amount "0.001" = some 0 ∧ ¬ (0 : ℚ) < 0 ∧
    parseDecimalString (normalizedOf "1e26") = some (.finite false 1 26) ∧
    0 < dval false 1 26 ∧
    parse_amount "1e26" = none := by
  refine ⟨by decide, by decide, by decide, ?_, by decide⟩
  rw [dval_pos_iff]
  decide

/-- C4 (amended): every row a successful rebuild emits carries the float
round-trips of that user's 28-digit context sums; its ROI is exactly 0
whenever the context deposit sum is 0 (and for such a user the rounding step
cannot raise, so the zero-guard does prevent any division by zero); whenever
deposits are positive the stored ROI is the float round-trip of
`round(roi, 2)` applied to the context-computed quotient, which equals the
ideal `(withdrawals - deposits) / deposits * 100` rounded half-even to two
decimals whenever the context subtraction, division, multiplication and the
float round-trip are exact on those values.  The rounding step itself can
raise `InvalidOperation` (aborting the mutation), so `Recompute` is not
raise-free. -/
theorem c4_roi (txs : List Tx) (now : String) (rows : List SummaryRow) (r : SummaryRow)
    (hrb : rebuild_summary txs now = some rows) (hr : r ∈ rows) :
    r.deposits = pyRoundTrip (ctxSumKind r.user_id .deposit txs) ∧
    r.withdrawals = pyRoundTrip (ctxSumKind r.user_id .withdraw txs) ∧
    (ctxSumKind r.user_id .deposit txs = 0 → r.roi_percent = 0) ∧
    (0 < ctxSumKind r.user_id .deposit txs →
      ∀ q2, roundQuant2 (ctxMul (ctxDiv (ctxSub (ctxSumKind r.user_id .withdraw txs)
          (ctxSumKind r.user_id .deposit txs)) (ctxSumKind r.user_id .deposit txs)) 100) =
        some q2 → r.roi_percent = pyRoundTrip q2) ∧
    (0 < ctxSumKind r.user_id .deposit txs →
      ctxSub (ctxSumKind r.user_id .withdraw txs) (ctxSumKind r.user_id .deposit txs) =
        ctxSumKind r.user_id .withdraw txs - ctxSumKind r.user_id .deposit txs →
      ctxDiv (ctxSumKind r.user_id .withdraw txs - ctxSumKind r.user_id .deposit txs)
          (ctxSumKind r.user_id .deposit txs) =
        (ctxSumKind r.user_id .withdraw txs - ctxSumKind r.user_id .deposit txs) /
          ctxSumKind r.user_id .deposit txs →
      ctxMul ((ctxSumKind r.user_id .withdraw txs - ctxSumKind r.user_id .deposit txs) /
          ctxSumKind r.user_id .deposit txs) 100 =
        (ctxSumKind r.user_id .withdraw txs - ctxSumKind r.user_id .deposit txs) /
          ctxSumKind r.user_id .deposit txs * 100 →
      ∀ q2, roundQuant2 ((ctxSumKind r.user_id .withdraw txs -
          ctxSumKind r.user_id .deposit txs) / ctxSumKind r.user_id .deposit txs * 100) =
        some q2 → pyRoundTrip q2 = q2 →
      r.roi_percent = round2 ((ctxSumKind r.user_id .withdraw txs -
        ctxSumKind r.user_id .deposit txs) / ctxSumKind r.user_id .deposit txs * 100)) ∧
    (∀ v : ℤ, ctxSumKind v .deposit txs = 0 →
      ∃ row, mkSummaryRow txs now v = some row ∧ row.roi_percent = 0) := by
  unfold rebuild_summary at hrb
  obtain ⟨x, hx, hmk⟩ := buildRows_mem_row hrb r hr
  obtain ⟨hxu, hd, hw, hb, q2', hq2', hroi⟩ := mkSummaryRow_fields hmk
  subst hxu
  refine ⟨hd, hw, ?_, ?_, ?_, ?_⟩
  · intro h0
    rw [h0, if_neg (lt_irrefl (0 : ℚ)), roundQuant2_zero] at hq2'
    have hz : (0 : ℚ) = q2' := Option.some_inj.mp hq2'
    rw [hroi, ← hz, pyRoundTrip_zero]
  · intro hpos q2 hq2
    rw [if_pos hpos] at hq2'
    rw [hq2] at hq2'
    have hq : q2 = q2' := Option.some_inj.mp hq2'
    rw [hroi, ← hq]
  · intro hpos he1 he2 he3 q2 hq2 hrt
    rw [if_pos hpos, he1, he2, he3] at hq2'
    rw [hq2] at hq2'
    have hq : q2 = q2' := Option.some_inj.mp hq2'
    have h5 := roundQuant2_eq_round2 hq2
    rw [hroi, ← hq, hrt, h5]
  · intro v hv
    have hmk2 : mkSummaryRow txs now v = some
        { user_id := v
          deposits := pyRoundTrip 0
          withdrawals := pyRoundTrip (ctxSumKind v .withdraw txs)
          balance := pyRoundTrip (ctxSub 0 (ctxSumKind v .withdraw txs))
          roi_percent := pyRoundTrip 0
          updated_at := now } := by
      unfold mkSummaryRow
      rw [hv, if_neg (lt_irrefl (0 : ℚ)), roundQuant2_zero]
    exact ⟨_, hmk2, pyRoundTrip_zero⟩

set_option maxRecDepth 1000000 in
unseal Rat.add Rat.mul Rat.inv Rat.sub in
/-- C4 witness: the specification's end-to-end example (deposit 1000.00,
withdraw 300.00), where every context step and the float round-trip are exact
and the stored ROI equals the ideal formula rounded: -70.00. -/
theorem c4_witness :
    (⟨42, 1000, 300, 700, -70, "t"⟩ : SummaryRow).deposits =
      pyRoundTrip (ctxSumKind 42 .deposit
        [⟨42, .deposit, 1000, "t"⟩, ⟨42, .withdraw, 300, "t"⟩]) ∧
    (⟨42, 1000, 300, 700, -70, "t"⟩ : SummaryRow).roi_percent =
      round2 ((ctxSumKind 42 .withdraw [⟨42, .deposit, 1000, "t"⟩, ⟨42, .withdraw, 300, "t"⟩] -
        ctxSumKind 42 .deposit [⟨42, .deposit, 1000, "t"⟩, ⟨42, .withdraw, 300, "t"⟩]) /
        ctxSumKind 42 .deposit [⟨42, .deposit, 1000, "t"⟩, ⟨42, .withdraw, 300, "t"⟩] * 100) :=
  ⟨(c4_roi [⟨42, .deposit, 1000, "t"⟩, ⟨42, .withdraw, 300, "t"⟩] "t"
      [⟨42, 1000, 300, 700, -70, "t"⟩] ⟨42, 1000, 300, 700, -70, "t"⟩
      (by decide) (by decide)).1,
   (c4_roi [⟨42, .deposit, 1000, "t"⟩, ⟨42, .withdraw, 300, "t"⟩] "t"
      [⟨42, 1000, 300, 700, -70, "t"⟩] ⟨42, 1000, 300, 700, -70, "t"⟩
      (by decide) (by decide)).2.2.2.2.1 (by decide) (by decide) (by decide) (by decide)
      (-70) (by decide) (by decide)⟩

set_option maxRecDepth 1000000 in
unseal Rat.add Rat.mul Rat.inv Rat.sub in
/-- C4 counterexample: with a deposit of 0.01 and a withdrawal of 9.9e25 (both
amounts accepted by `parse_amount`), the context ROI is
9.899999999999999999999999999E+29 and `round(roi, 2)` overflows the 28-digit
precision, so the rebuild raises and the mutation fails — refuting the
claim's "never raises". -/
theorem c4_counterexample :
    parse_amount "0.01" = some (1 / 100) ∧
    parse_amount "9.9e25" = some 99000000000000000000000000 ∧
    applyOp initialState (.addTx 7 .deposit (1 / 100) "t") =
      some ⟨[⟨7, .deposit, 1 / 100, "t"⟩], [⟨7, 1 / 100, 0, 1 / 100, -100, "t"⟩]⟩ ∧
    applyOp ⟨[⟨7, .deposit, 1 / 100, "t"⟩], [⟨7, 1 / 100, 0, 1 / 100, -100, "t"⟩]⟩
      (.addTx 7 .withdraw 99000000000000000000000000 "t") = none := by
  decide

/-- C5 (amended): for every user, every state and every limit `N ≥ 1` (the
default is 10), `get_user_history` returns at most `N` entries, and the result
is exactly the reversal of a suffix of that user's transaction triples in log
order (so it is ordered most-recent-first). -/
theorem c5_history (s : LedgerState) (u : ℤ) (N : ℤ) (hN : 1 ≤ N) :
    (get_user_history s u N).length ≤ N.toNat ∧
    get_user_history s u N =
      ((user_rows s.transactions u).drop
        ((user_rows s.transactions u).length - N.toNat)).reverse ∧
    (get_user_history s u N).reverse <:+ user_rows s.transactions u := by
  unfold get_user_history
  rw [pyTail_pos N hN]
  refine ⟨?_, rfl, ?_⟩
  · rw [List.length_reverse, List.length_drop]
    omega
  · rw [List.reverse_reverse]
    exact List.drop_suffix _ _

/-- C5 witness: the amended statement at a concrete state and the default
limit 10. -/
theorem c5_witness :
    (get_user_history initialState 7 10).length ≤ (10 : ℤ).toNat ∧
    get_user_history initialState 7 10 =
      ((user_rows initialState.transactions 7).drop
        ((user_rows initialState.transactions 7).length - (10 : ℤ).toNat)).reverse ∧
    (get_user_history initialState 7 10).reverse <:+
      user_rows initialState.transactions 7 :=
  c5_history initialState 7 10 (by decide)

set_option maxRecDepth 1000000 in
unseal Rat.add Rat.mul Rat.inv Rat.sub in
/-- C5 counterexample: with limit 0, `rows[-limit:]` is the whole list, so the
history of a user with one transaction has one entry, not at most 0. -/
theorem c5_counterexample :
    applyOp initialState (.addTx 7 .deposit 5 "t") =
      some ⟨[⟨7, .deposit, 5, "t"⟩], [⟨7, 5, 0, 5, -100, "t"⟩]⟩ ∧
    ¬ ((get_user_history ⟨[⟨7, .deposit, 5, "t"⟩], [⟨7, 5, 0, 5, -100, "t"⟩]⟩ 7 0).length ≤ 0) := by
  decide

/-- C6 (amended): with the recomputation timestamp held fixed and for every
successful reset, `reset_user` is idempotent, afterwards the user's stats are
`(0,0,0,0)` and the history is empty for every limit; and resetting a user
with no records is a no-op (not an error) on any state whose summary is the
rebuild of its log.  (A reset whose rebuild raises leaves the durable state
unchanged and is outside the claim's "applied" reading.) -/
theorem c6_reset_user (s : LedgerState) (u : ℤ) (now : String) (N : ℤ) :
    (∀ s', reset_user s u now = some s' →
      reset_user s' u now = some s' ∧
      get_user_stats s' u = (0, 0, 0, 0) ∧
      get_user_history s' u N = []) ∧
    ((∀ t ∈ s.transactions, t.user_id ≠ u) →
      rebuild_summary s.transactions now = some s.summary →
      reset_user s u now = some s) := by
  constructor
  · intro s' h
    obtain ⟨htx, hrb⟩ := reset_user_some_elim h
    have hno : ∀ t ∈ s'.transactions, t.user_id ≠ u := by
      intro t ht
      rw [htx] at ht
      have := List.of_mem_filter ht
      simpa using this
    have hfix : s'.transactions.filter (fun t => decide (t.user_id ≠ u)) =
        s'.transactions :=
      List.filter_eq_self.mpr (fun t ht => by simpa using hno t ht)
    refine ⟨?_, ?_, ?_⟩
    · unfold reset_user
      rw [hfix, hrb]
    · exact (get_user_stats_of_rebuild hrb u).2 hno
    · unfold get_user_history
      rw [user_rows_reset_nil hno, pyTail_nil, List.reverse_nil]
  · intro hno hrb
    have hfix : s.transactions.filter (fun t => decide (t.user_id ≠ u)) =
        s.transactions :=
      List.filter_eq_self.mpr (fun t ht => by simpa using hno t ht)
    unfold reset_user
    rw [hfix, hrb]

set_option maxRecDepth 1000000 in
unseal Rat.add Rat.mul Rat.inv Rat.sub in
/-- C6 witness: resetting user 7 out of a one-transaction state succeeds and
yields a state on which the reset is idempotent with zero stats and empty
history; resetting user 9 on the fresh workbook is a no-op. -/
theorem c6_witness :
    (reset_user initialState 7 "t" = some initialState ∧
     get_user_stats initialState 7 = (0, 0, 0, 0) ∧
     get_user_history initialState 7 10 = []) ∧
    reset_user initialState 9 "t" = some initialState :=
  ⟨(c6_reset_user ⟨[⟨7, .deposit, 5, "t"⟩], [⟨7, 5, 0, 5, -100, "t"⟩]⟩ 7 "t" 10).1
      initialState (by decide),
   (c6_reset_user initialState 9 "t" 10).2
      (fun t ht => absurd ht (List.not_mem_nil t)) rfl⟩

/-- C7: on any state whose summary is the rebuild of its log (as after
initialization and after every successful mutation), a user with no
transactions in the log gets the zero tuple from `get_user_stats` and the
empty list from `get_user_history`; both queries are total functions, so no
error path exists for unknown users. -/
theorem c7_unknown_user (s : LedgerState) (u : ℤ) (now : String) (N : ℤ)
    (hwf : rebuild_summary s.transactions now = some s.summary)
    (hno : ∀ t ∈ s.transactions, t.user_id ≠ u) :
    get_user_stats s u = (0, 0, 0, 0) ∧ get_user_history s u N = [] := by
  refine ⟨(get_user_stats_of_rebuild hwf u).2 hno, ?_⟩
  unfold get_user_history
  rw [user_rows_reset_nil hno, pyTail_nil, List.reverse_nil]

/-- C7 witness: the specification's brand-new user 99 on the fresh workbook. -/
theorem c7_witness :
    get_user_stats initialState 99 = (0, 0, 0, 0) ∧
    get_user_history initialState 99 10 = [] :=
  c7_unknown_user initialState 99 "t" 10 rfl
    (fun t ht => absurd ht (List.not_mem_nil t))

/-- C8: every successful `reset_user(u)` keeps exactly the records whose
`user_id` differs from `u`: the resulting log is a sublist of the original
(so the relative order of all remaining records is preserved), every record
of `u` is removed, and every other record keeps its exact multiplicity. -/
theorem c8_reset_frame (s : LedgerState) (u : ℤ) (now : String) (s' : LedgerState)
    (h : reset_user s u now = some s') :
    s'.transactions.Sublist s.transactions ∧
    (∀ t : Tx, s'.transactions.count t =
      if t.user_id = u then 0 else s.transactions.count t) := by
  obtain ⟨htx, -⟩ := reset_user_some_elim h
  rw [htx]
  refine ⟨List.filter_sublist _, fun t => ?_⟩
  by_cases ht : t.user_id = u
  · rw [if_pos ht, List.count_eq_zero]
    intro hmem
    have := List.of_mem_filter hmem
    simp only [decide_eq_true_eq] at this
    exact this ht
  · rw [if_neg ht]
    exact count_filter_of_pos (by simpa using ht) s.transactions

set_option maxRecDepth 1000000 in
unseal Rat.add Rat.mul Rat.inv Rat.sub in
/-- C8 witness: resetting user 7 on a state holding only a record of user 9
keeps that record (sublist, multiplicity unchanged). -/
theorem c8_witness :
    ([⟨9, .deposit, 5, "t"⟩] : List Tx).Sublist [⟨9, .deposit, 5, "t"⟩] ∧
    (∀ t : Tx, ([⟨9, .deposit, 5, "t"⟩] : List Tx).count t =
      if t.user_id = 7 then 0 else ([⟨9, .deposit, 5, "t"⟩] : List Tx).count t) :=
  c8_reset_frame ⟨[⟨9, .deposit, 5, "t"⟩], [⟨9, 5, 0, 5, -100, "t"⟩]⟩ 7 "t"
    ⟨[⟨9, .deposit, 5, "t"⟩], [⟨9, 5, 0, 5, -100, "t"⟩]⟩ (by decide)

unseal Rat.add Rat.mul Rat.inv Rat.sub in
/-- C9: `parse_amount` treats every comma as a decimal point, never as a
thousands separator: `"1,000"` parses to the decimal `1.00`, and every input
containing both a comma and a dot normalizes to a text with two decimal points
and fails as an invalid numeral. -/
theorem c9_comma_semantics :
    parse_amount "1,000" = some 1 ∧
    (∀ raw : String, ',' ∈ raw.data → '.' ∈ raw.data → parse_amount raw = none) := by
  constructor
  · decide
  · intro raw hc hd
    have h2 : 2 ≤ countCh '.' (normalizedOf raw) := by
      unfold normalizedOf
      rw [countCh_dot_strip, countCh_dot_commaToDot]
      have hc1 : 1 ≤ countCh ',' raw.data := (countCh_pos_iff_mem _ _).mpr hc
      have hd1 : 1 ≤ countCh '.' raw.data := (countCh_pos_iff_mem _ _).mpr hd
      omega
    unfold parse_amount
    rw [parseDecimalString_two_dots h2]

/-- C9 witness: the mixed-separator input of the claim fails. -/
theorem c9_witness : parse_amount "1,000.50" = none :=
  c9_comma_semantics.2 "1,000.50" (by decide) (by decide)

set_option maxRecDepth 1000000 in
unseal Rat.add Rat.mul Rat.inv Rat.sub in
/-- C10: every successful `add_transaction` stores the float round-trip
`Decimal(str(float(amount)))` of the amount, not the amount itself; the
2-decimal amount 1125899906842624.25 is accepted by `parse_amount` yet its
round-trip is 1125899906842624.2 ≠ the original (so storage is not exact
decimal arithmetic end to end), while 1000 survives the round-trip exactly. -/
theorem c10_float_roundtrip :
    (∀ (s : LedgerState) (u : ℤ) (k : TxType) (a : ℚ) (now : String) (s' : LedgerState),
      add_transaction s u k a now = some s' →
      s'.transactions = s.transactions ++ [⟨u, k, pyRoundTrip a, now⟩]) ∧
    parse_amount "1125899906842624.25" = some (112589990684262425 / 100) ∧
    pyRoundTrip (112589990684262425 / 100) = 11258999068426242 / 10 ∧
    (112589990684262425 / 100 : ℚ) ≠ 11258999068426242 / 10 ∧
    pyRoundTrip 1000 = 1000 := by
  refine ⟨fun s u k a now s' h => (add_transaction_some_elim h).1, ?_, ?_, ?_, ?_⟩ <;>
    decide

set_option maxRecDepth 1000000 in
unseal Rat.add Rat.mul Rat.inv Rat.sub in
/-- C10 witness: a concrete successful deposit appends the round-tripped
amount. -/
theorem c10_witness :
    (⟨[⟨7, .deposit, 5, "t"⟩], [⟨7, 5, 0, 5, -100, "t"⟩]⟩ : LedgerState).transactions =
      initialState.transactions ++ [⟨7, .deposit, pyRoundTrip 5, "t"⟩] :=
  c10_float_roundtrip.1 initialState 7 .deposit 5 "t"
    ⟨[⟨7, .deposit, 5, "t"⟩], [⟨7, 5, 0, 5, -100, "t"⟩]⟩ (by decide)
